import Mathlib

/-!
Shallow embedding of the pack/unpack scripts of the repository (sh/pack.py and
sh/unpack.py) and proofs about them.

File texts are modelled as lists of characters (Python `str` values read and
written in text mode).  A source directory is modelled as an association list of
(base name, file text) pairs in an arbitrary enumeration order, together with a
boolean saying whether the directory exists.  Filesystem effects (which file is
written, whether the output directory is created) are returned explicitly.
-/

set_option maxHeartbeats 1000000

namespace OneFa

/-- Newline character, the only line terminator involved. -/
def nl : Char := '\n'

/-- POSIX path separator, used by os.path.join and os.path.basename. -/
def sep : Char := '/'

/-- Leading dot, which makes a file name hidden for glob. -/
def dot : Char := '.'

/-- Marker text written by pack.py before each file name and searched for by the
regular expression of unpack.py. -/
def tagS : String := "// FILE: "

/-- Marker text as a character list (nine characters). -/
def tag : List Char := tagS.data

def swiftExtS : String := ".swift"

def plistExtS : String := ".plist"

def jsonExtS : String := ".json"

def entitlementsExtS : String := ".entitlements"

/-- Extension suffix of the glob pattern for Swift sources. -/
def swiftExt : List Char := swiftExtS.data

/-- Extension suffix of the glob pattern for property lists. -/
def plistExt : List Char := plistExtS.data

/-- Extension suffix of the glob pattern for JSON files. -/
def jsonExt : List Char := jsonExtS.data

/-- Extension suffix of the glob pattern for entitlements files. -/
def entitlementsExt : List Char := entitlementsExtS.data

/-- Whether `ext` is a suffix of the name `n`, computed by comparing the last
`ext.length` characters.  This is how the star of a glob pattern star-dot-ext
constrains a candidate name. -/
def endsWith (n ext : List Char) : Bool :=
  decide (ext.length ≤ n.length) && decide (n.drop (n.length - ext.length) = ext)

/-- Matching of glob.glob for the pattern star-dot-ext against one directory
entry: the name must end with the extension, and glob skips hidden files (names
starting with a dot) because the pattern does not start with a dot. -/
def globMatch (n ext : List Char) : Bool :=
  decide (n.head? ≠ some dot) && endsWith n ext

/-- Whether the marker text occurs anywhere in `s` (as a contiguous substring). -/
def hasTag : List Char → Bool
  | [] => false
  | c :: cs => tag.isPrefixOf (c :: cs) || hasTag cs

/-- Whether the regular expression of unpack.py can match at the head of `s`:
the literal marker text must be present, and since dot does not match a newline
while the pattern ends in a newline, some newline must follow.  The name group
is then everything up to the first newline after the marker text. -/
def isMarkerStart (s : List Char) : Bool :=
  tag.isPrefixOf s && (s.drop 9).any (fun c => c == nl)

/-- Name group of a regex match starting at the head of `s`: the characters
after the nine-character marker text, up to the first newline. -/
def markName (s : List Char) : List Char :=
  (s.drop 9).takeWhile (fun c => c != nl)

/-- Remainder of `s` after a regex match starting at its head: everything past
the newline that terminates the marker line. -/
def markRest (s : List Char) : List Char :=
  ((s.drop 9).dropWhile (fun c => c != nl)).drop 1

/-- Fuelled scanner realizing re.finditer for the marker pattern: at each
position, if a match starts there it is taken and scanning resumes after the
match (non-overlapping, left to right); otherwise scanning advances one
character.  It returns the text before the first match together with the list
of (name, raw span) pairs, where each raw span is the text from the end of a
match to the start of the next match (or to the end of input). -/
def scanFuel : Nat → List Char → List Char × List (List Char × List Char)
  | 0, s => (s, [])
  | _ + 1, [] => ([], [])
  | fuel + 1, c :: cs =>
    if isMarkerStart (c :: cs) then
      let r := scanFuel fuel (markRest (c :: cs))
      ([], (markName (c :: cs), r.1) :: r.2)
    else
      let r := scanFuel fuel cs
      (c :: r.1, r.2)

/-- Marker scan of a whole text; a fuel equal to the length always suffices
because every step consumes at least one character. -/
def scanMarkers (s : List Char) : List Char × List (List Char × List Char) :=
  scanFuel s.length s

/-- Python strip with a newline argument: remove newline characters from both
ends of the text, keeping interior ones. -/
def stripNl (s : List Char) : List Char :=
  ((s.dropWhile (fun c => c == nl)).reverse.dropWhile (fun c => c == nl)).reverse

/-- Entries recovered by unpack.py from an archive text: for every regex match,
the name group paired with the raw span after the match stripped of leading and
trailing newlines. -/
def unpackEntries (s : List Char) : List (List Char × List Char) :=
  (scanMarkers s).2.map (fun e => (e.1, stripNl e.2))

/-- Marker line written by pack.py for one file. -/
def marker (name : List Char) : List Char :=
  tag ++ name ++ [nl]

/-- Archive text written by pack.py for a list of (base name, content) entries:
each entry contributes its marker line and its raw content, and one extra
newline separates consecutive entries (written after every entry except the
last). -/
def packEntries : List (List Char × List Char) → List Char
  | [] => []
  | e :: rest =>
    marker e.1 ++ e.2 ++ (if rest.isEmpty then ([] : List Char) else [nl]) ++ packEntries rest

/-- Raw spans the scanner sees for packed entries: every entry except the last
carries the separator newline at the end of its span. -/
def withSep : List (List Char × List Char) → List (List Char × List Char)
  | [] => []
  | [e] => [e]
  | e :: e' :: rest => (e.1, e.2 ++ [nl]) :: withSep (e' :: rest)

/-- Python string comparison: lexicographic by code point. -/
def lexLt : List Char → List Char → Bool
  | _, [] => false
  | [], _ :: _ => true
  | a :: as, b :: bs =>
    if a < b then true else if b < a then false else lexLt as bs

/-- Insertion into a sorted list, the building block of the model of Python
sorted below. -/
def insertLe (le : α → α → Bool) (a : α) : List α → List α
  | [] => [a]
  | b :: bs => if le a b then a :: b :: bs else b :: insertLe le a bs

/-- Model of Python sorted: a stable comparison sort, realized as insertion
sort. -/
def sortLe (le : α → α → Bool) : List α → List α
  | [] => []
  | a :: as => insertLe le a (sortLe le as)

/-- POSIX os.path.join of two components: an absolute second component replaces
the first, otherwise a separator is inserted unless the first component is
empty or already ends with a separator. -/
def joinPath (a b : List Char) : List Char :=
  if b.head? = some sep then b
  else if a = [] then b
  else if a.getLast? = some sep then a ++ b
  else a ++ sep :: b

/-- POSIX os.path.basename: the characters after the last separator. -/
def baseName (p : List Char) : List Char :=
  (p.reverse.takeWhile (fun c => c != sep)).reverse

/-- Directory part that joinPath puts in front of a non-absolute name. -/
def dirPre (a : List Char) : List Char :=
  if a = [] then [] else if a.getLast? = some sep then a else a ++ [sep]

/-- One glob call of pack.py: the directory entries matching the pattern, as
(full path, content) pairs, in enumeration order. -/
def globFiles (dir : List Char) (listing : List (List Char × List Char))
    (ext : List Char) : List (List Char × List Char) :=
  (listing.filter (fun e => globMatch e.1 ext)).map (fun e => (joinPath dir e.1, e.2))

/-- Comparison used when pack.py sorts the combined glob results: Python sorted
over path strings, i.e. a path precedes another when the other is not
lexicographically smaller. -/
def pathLe (e1 e2 : List Char × List Char) : Bool :=
  !lexLt e2.1 e1.1

/-- The variable all_files of pack.py: the four glob results concatenated and
sorted by full path. -/
def allFiles (dir : List Char) (listing : List (List Char × List Char)) :
    List (List Char × List Char) :=
  sortLe pathLe
    (globFiles dir listing swiftExt ++ globFiles dir listing plistExt ++
      globFiles dir listing jsonExt ++ globFiles dir listing entitlementsExt)

/-- Archive text pack.py writes: for each sorted file, a marker line with the
base name of its path, then its content, with a newline after every file except
the last. -/
def packedArchive (dir : List Char) (listing : List (List Char × List Char)) :
    List Char :=
  packEntries ((allFiles dir listing).map (fun e => (baseName e.1, e.2)))

/-- Observable outcome of pack_files: the error return when the source
directory is missing, the no-matching-files return (no output written), or the
written archive with the reported count. -/
inductive PackOutcome where
  | srcMissing : PackOutcome
  | noFiles : PackOutcome
  | wrote : List Char → Nat → PackOutcome
deriving DecidableEq, Repr

/-- pack_files of sh/pack.py.  `isDir` is the os.path.isdir test on the source
directory; `listing` is the directory contents as (base name, file text) pairs
in enumeration order.  The output file path only names where the archive goes,
so it is not a parameter of the model; the archive text is carried in the
outcome. -/
def pack_files (isDir : Bool) (source_dir : List Char)
    (listing : List (List Char × List Char)) : PackOutcome :=
  if isDir = false then .srcMissing
  else if allFiles source_dir listing = [] then .noFiles
  else .wrote (packedArchive source_dir listing) (allFiles source_dir listing).length

/-- Message printed at the end of unpack_files. -/
inductive UnpackMsg where
  | inputMissing : UnpackMsg
  | noMarkers : UnpackMsg
  | success : Nat → UnpackMsg
deriving DecidableEq, Repr

/-- Filesystem effects and report of unpack_files: whether os.makedirs ran on
the output directory, the (output path, content) pairs written in order, and
the final message. -/
structure UnpackResult where
  madeDir : Bool
  written : List (List Char × List Char)
  msg : UnpackMsg
deriving DecidableEq, Repr

/-- unpack_files of sh/unpack.py.  `inputExists` is the os.path.exists test on
the input file and `content` its text.  The output directory is created
(os.makedirs, intermediate components included) before the marker scan; each
entry is then written to os.path.join of the output directory with the marker
name used verbatim. -/
def unpack_files (inputExists : Bool) (content : List Char)
    (output_dir : List Char) : UnpackResult :=
  if inputExists = false then ⟨false, [], .inputMissing⟩
  else if (scanMarkers content).2 = [] then ⟨true, [], .noMarkers⟩
  else
    ⟨true, (unpackEntries content).map (fun e => (joinPath output_dir e.1, e.2)),
      .success (unpackEntries content).length⟩

/-! Basic facts about the marker text and the scanner. -/

theorem tag_length : tag.length = 9 := rfl

theorem nl_not_mem_tag : nl ∉ tag := by decide

theorem tag_ne_nil : tag ≠ [] := by decide

/-- One scanning step discards the marker line, so the remainder is strictly
shorter than the nonempty input (in fact shorter by at least ten characters,
but only ´shorter than the tail´ is needed). -/
theorem markRest_length_le (c : Char) (cs : List Char) :
    (markRest (c :: cs)).length ≤ cs.length := by
  unfold markRest
  have h1 : (((c :: cs).drop 9).dropWhile (fun c => c != nl)).length ≤
      ((c :: cs).drop 9).length :=
    (List.dropWhile_sublist _).length_le
  have h2 : ((((c :: cs).drop 9).dropWhile (fun c => c != nl)).drop 1).length ≤
      (((c :: cs).drop 9).dropWhile (fun c => c != nl)).length := by
    rw [List.length_drop]; omega
  have h3 : ((c :: cs).drop 9).length = (c :: cs).length - 9 := List.length_drop 9 _
  simp only [List.length_cons] at h3
  omega

/-- The scan result does not depend on the fuel, as long as the fuel covers the
length of the input. -/
theorem scanFuel_congr :
    ∀ (f1 f2 : Nat) (s : List Char), s.length ≤ f1 → s.length ≤ f2 →
      scanFuel f1 s = scanFuel f2 s := by
  intro f1
  induction f1 with
  | zero =>
    intro f2 s h1 _
    have : s = [] := List.eq_nil_of_length_eq_zero (Nat.le_zero.mp h1)
    subst this
    cases f2 <;> rfl
  | succ f ih =>
    intro f2 s h1 h2
    cases s with
    | nil => cases f2 <;> rfl
    | cons c cs =>
      cases f2 with
      | zero => simp at h2
      | succ g =>
        simp only [scanFuel]
        by_cases hm : isMarkerStart (c :: cs) = true
        · simp only [hm, if_true]
          have hr : (markRest (c :: cs)).length ≤ f := by
            have := markRest_length_le c cs
            simp only [List.length_cons] at h1
            omega
          have hr2 : (markRest (c :: cs)).length ≤ g := by
            have := markRest_length_le c cs
            simp only [List.length_cons] at h2
            omega
          rw [ih g _ hr hr2]
        · rw [Bool.not_eq_true] at hm
          have hc : cs.length ≤ f := by simp only [List.length_cons] at h1; omega
          have hc2 : cs.length ≤ g := by simp only [List.length_cons] at h2; omega
          simp only [hm, Bool.false_eq_true, if_false]
          rw [ih g _ hc hc2]

theorem scanMarkers_nil : scanMarkers [] = ([], []) := rfl

/-- Unfolding of the scanner at a position where a match starts. -/
theorem scanMarkers_cons_marker (c : Char) (cs : List Char)
    (h : isMarkerStart (c :: cs) = true) :
    scanMarkers (c :: cs) =
      ([], (markName (c :: cs), (scanMarkers (markRest (c :: cs))).1) ::
        (scanMarkers (markRest (c :: cs))).2) := by
  unfold scanMarkers
  simp only [List.length_cons, scanFuel, h, if_true]
  rw [scanFuel_congr cs.length (markRest (c :: cs)).length (markRest (c :: cs))
    (markRest_length_le c cs) (Nat.le_refl _)]

/-- Unfolding of the scanner at a position where no match starts. -/
theorem scanMarkers_cons_not (c : Char) (cs : List Char)
    (h : isMarkerStart (c :: cs) = false) :
    scanMarkers (c :: cs) = (c :: (scanMarkers cs).1, (scanMarkers cs).2) := by
  unfold scanMarkers
  simp only [List.length_cons, scanFuel, h, Bool.false_eq_true, if_false]

/-- Induction principle following the recursion structure of the scanner. -/
theorem scan_induct (P : List Char → Prop) (h1 : P [])
    (h2 : ∀ c cs, isMarkerStart (c :: cs) = true → P (markRest (c :: cs)) → P (c :: cs))
    (h3 : ∀ c cs, isMarkerStart (c :: cs) = false → P cs → P (c :: cs)) :
    ∀ s, P s
  | [] => h1
  | c :: cs =>
    if h : isMarkerStart (c :: cs) = true then
      h2 c cs h (scan_induct P h1 h2 h3 (markRest (c :: cs)))
    else
      h3 c cs (Bool.not_eq_true _ ▸ h) (scan_induct P h1 h2 h3 cs)
termination_by s => s.length
decreasing_by
  · have := markRest_length_le c cs
    simp only [List.length_cons]
    omega
  · simp [List.length_cons]

/-! Prefix bookkeeping in boolean form. -/

/-- isPrefixOf characterized by the existence of a remainder. -/
theorem isPrefixOf_ex : ∀ (t s : List Char), t.isPrefixOf s = true ↔ ∃ r, s = t ++ r
  | [], s => by simp [List.isPrefixOf]
  | a :: ts, [] => by simp [List.isPrefixOf]
  | a :: ts, b :: ss => by
    simp only [List.isPrefixOf, Bool.and_eq_true, beq_iff_eq]
    constructor
    · rintro ⟨rfl, h⟩
      obtain ⟨r, rfl⟩ := (isPrefixOf_ex ts ss).mp h
      exact ⟨r, rfl⟩
    · rintro ⟨r, hr⟩
      rw [List.cons_append] at hr
      injection hr with hh ht
      exact ⟨hh.symm, (isPrefixOf_ex ts ss).mpr ⟨r, ht⟩⟩

/-- A list is a prefix of itself extended by anything. -/
theorem isPrefixOf_self_append (t r : List Char) : t.isPrefixOf (t ++ r) = true :=
  (isPrefixOf_ex t (t ++ r)).mpr ⟨r, rfl⟩

/-- A prefix of an appended list is a prefix of the left part or extends it. -/
theorem prefixSplit : ∀ (t a b : List Char), t.isPrefixOf (a ++ b) = true →
    t.isPrefixOf a = true ∨ a.isPrefixOf t = true
  | [], a, _, _ => Or.inl (by cases a <;> rfl)
  | t :: ts, [], b, _ => Or.inr rfl
  | t :: ts, a :: as, b, h => by
    simp only [List.cons_append, List.isPrefixOf, Bool.and_eq_true, beq_iff_eq] at h ⊢
    rcases prefixSplit ts as b h.2 with h' | h'
    · exact Or.inl ⟨h.1, h'⟩
    · exact Or.inr ⟨h.1.symm, h'⟩

/-- Cancellation of a common prefix under isPrefixOf. -/
theorem isPrefixOf_cancel : ∀ (p a b : List Char),
    (p ++ a).isPrefixOf (p ++ b) = a.isPrefixOf b
  | [], _, _ => rfl
  | c :: ps, a, b => by
    simp only [List.cons_append, List.isPrefixOf, BEq.refl, Bool.true_and]
    exact isPrefixOf_cancel ps a b

/-- If the marker text occurs nowhere in a text, it is a prefix of no suffix of
that text. -/
theorem hasTag_drop : ∀ (a b : List Char), hasTag (a ++ b) = false →
    tag.isPrefixOf b = false
  | [], b, h => by
    cases b with
    | nil => decide
    | cons x xs =>
      rw [List.nil_append] at h
      unfold hasTag at h
      exact (Bool.or_eq_false_iff.mp h).1
  | x :: a', b, h => by
    rw [List.cons_append] at h
    unfold hasTag at h
    exact hasTag_drop a' b (Bool.or_eq_false_iff.mp h).2

/-- takeWhile and dropWhile around the first failing element. -/
theorem takeWhile_all_append (p : Char → Bool) :
    ∀ (n : List Char) (x : Char) (r : List Char), (∀ a ∈ n, p a = true) →
      p x = false →
      (n ++ x :: r).takeWhile p = n ∧ (n ++ x :: r).dropWhile p = x :: r
  | [], x, r, _, hx => by simp [List.takeWhile_cons, List.dropWhile_cons, hx]
  | a :: n', x, r, h, hx => by
    have ha : p a = true := h a (by simp)
    have ih := takeWhile_all_append p n' x r (fun b hb => h b (by simp [hb])) hx
    simp [List.takeWhile_cons, List.dropWhile_cons, ha, ih.1, ih.2]

/-- The head of a dropWhile result fails the predicate. -/
theorem dropWhile_head_false (p : Char → Bool) :
    ∀ (l : List Char) (x : Char) (xs : List Char), l.dropWhile p = x :: xs →
      p x = false
  | [], x, xs, h => by simp [List.dropWhile] at h
  | a :: l', x, xs, h => by
    by_cases ha : p a = true
    · rw [List.dropWhile_cons, if_pos ha] at h
      exact dropWhile_head_false p l' x xs h
    · rw [Bool.not_eq_true] at ha
      rw [List.dropWhile_cons] at h
      simp only [ha, Bool.false_eq_true, if_false] at h
      injection h with hh _
      rw [← hh]
      exact ha

/-- Decomposition of the input at a match: the marker text, then the name group
(which contains no newline), then the newline of the pattern, then the rest. -/
theorem marker_decomp (s : List Char) (h : isMarkerStart s = true) :
    s = tag ++ markName s ++ nl :: markRest s ∧ nl ∉ markName s := by
  unfold isMarkerStart at h
  rw [Bool.and_eq_true] at h
  obtain ⟨hpre, hany⟩ := h
  obtain ⟨r, hr⟩ := (isPrefixOf_ex tag s).mp hpre
  have hdrop : s.drop 9 = r := by
    rw [hr, ← tag_length, List.drop_left]
  have hmem : nl ∈ r := by
    obtain ⟨x, hx, hxeq⟩ := List.any_eq_true.mp hany
    rw [hdrop] at hx
    rwa [beq_iff_eq.mp hxeq] at hx
  have hsplit := List.takeWhile_append_dropWhile (l := r) (p := fun c => c != nl)
  have hne : r.dropWhile (fun c => c != nl) ≠ [] := by
    intro hnil
    rw [hnil, List.append_nil] at hsplit
    rw [← hsplit] at hmem
    have := List.mem_takeWhile_imp hmem
    simp at this
  obtain ⟨d, ds, hd⟩ := List.exists_cons_of_ne_nil hne
  have hdnl : d = nl := by
    have := dropWhile_head_false (fun c => c != nl) r d ds hd
    simpa using this
  constructor
  · have hmn : markName s = r.takeWhile (fun c => c != nl) := by
      unfold markName
      rw [hdrop]
    have hmr : markRest s = ds := by
      unfold markRest
      rw [hdrop, hd]
      simp
    rw [hmn, hmr, hr]
    conv_lhs => rw [← hsplit, hd, hdnl]
    simp
  · intro hmemname
    unfold markName at hmemname
    rw [hdrop] at hmemname
    have := List.mem_takeWhile_imp hmemname
    simp at this

/-- Unfolding of the scanner at a match, stated for an arbitrary input. -/
theorem scanMarkers_marker (s : List Char) (h : isMarkerStart s = true) :
    scanMarkers s =
      ([], (markName s, (scanMarkers (markRest s)).1) ::
        (scanMarkers (markRest s)).2) := by
  cases s with
  | nil => exact absurd h (by decide)
  | cons c cs => exact scanMarkers_cons_marker c cs h

/-- A text without any occurrence of the marker text scans to no matches and is
returned whole as the leading gap. -/
theorem scan_no_tag : ∀ s : List Char, hasTag s = false → scanMarkers s = (s, []) := by
  intro s
  induction s using scan_induct with
  | h1 => intro _; rfl
  | h2 c cs hm ih =>
    intro h
    have hp : tag.isPrefixOf (c :: cs) = true := by
      unfold isMarkerStart at hm
      rw [Bool.and_eq_true] at hm
      exact hm.1
    have hfalse : tag.isPrefixOf (c :: cs) = false := by
      have := hasTag_drop [] (c :: cs) (by simpa using h)
      simpa using this
    rw [hp] at hfalse
    exact absurd hfalse (by simp)
  | h3 c cs hm ih =>
    intro h
    rw [scanMarkers_cons_not c cs hm]
    unfold hasTag at h
    rw [ih (Bool.or_eq_false_iff.mp h).2]

/-- Scanning past a gap in which no match can start just accumulates the gap in
front of the scan of the remainder. -/
theorem scan_gap : ∀ (g x : List Char),
    (∀ u v, g = u ++ v → v ≠ [] → tag.isPrefixOf (v ++ x) = false) →
    scanMarkers (g ++ x) = (g ++ (scanMarkers x).1, (scanMarkers x).2)
  | [], x, _ => by simp
  | c :: g', x, h => by
    have hpre : tag.isPrefixOf ((c :: g') ++ x) = false :=
      h [] (c :: g') rfl (by simp)
    have hm : isMarkerStart (c :: (g' ++ x)) = false := by
      unfold isMarkerStart
      rw [← List.cons_append, hpre]
      rfl
    rw [List.cons_append, scanMarkers_cons_not _ _ hm]
    have ih := scan_gap g' x (fun u v huv hv => h (c :: u) v (by rw [huv]; rfl) hv)
    rw [ih]
    simp

/-- Scanning a marker line with a newline-free name followed by anything:
the match is taken and the rest is scanned for the raw span. -/
theorem scan_marker_cons (n x : List Char) (hn : nl ∉ n) :
    scanMarkers (marker n ++ x) =
      ([], (n, (scanMarkers x).1) :: (scanMarkers x).2) := by
  have hshape : marker n ++ x = tag ++ (n ++ nl :: x) := by
    unfold marker
    simp
  have hdrop : (tag ++ (n ++ nl :: x)).drop 9 = n ++ nl :: x := by
    rw [← tag_length, List.drop_left]
  have htw := takeWhile_all_append (fun c => c != nl) n nl x
    (fun a ha => bne_iff_ne.mpr (fun hcontra => hn (hcontra ▸ ha)))
    (by simp)
  have hmark : isMarkerStart (tag ++ (n ++ nl :: x)) = true := by
    unfold isMarkerStart
    rw [isPrefixOf_self_append, hdrop]
    simp only [Bool.true_and, List.any_eq_true]
    exact ⟨nl, by simp, by simp⟩
  have hname : markName (tag ++ (n ++ nl :: x)) = n := by
    unfold markName
    rw [hdrop, htw.1]
  have hrest : markRest (tag ++ (n ++ nl :: x)) = x := by
    unfold markRest
    rw [hdrop, htw.2, List.drop_one, List.tail_cons]
  rw [hshape, scanMarkers_marker _ hmark, hname, hrest]

/-- Discharge of the gap condition of scan_gap for a content span followed by
the separator newline: no match can start inside it when the marker text does
not occur in the content. -/
theorem gap_no_tag (c x : List Char) (hc : hasTag c = false) :
    ∀ u v, c ++ [nl] = u ++ v → v ≠ [] → tag.isPrefixOf (v ++ x) = false := by
  intro u v huv hv
  have hlen : u.length ≤ c.length := by
    have h1 : (c ++ [nl]).length = u.length + v.length := by rw [huv]; simp
    have h2 : 1 ≤ v.length := by
      cases v with
      | nil => exact absurd rfl hv
      | cons _ _ => simp
    simp only [List.length_append, List.length_cons, List.length_nil] at h1
    omega
  have hveq : v = c.drop u.length ++ [nl] := by
    have : (c ++ [nl]).drop u.length = v := by
      rw [huv, List.drop_left]
    rw [← this, List.drop_append_of_le_length hlen]
  set v' := c.drop u.length with hv'
  by_contra hcon
  rw [Bool.not_eq_false] at hcon
  rw [hveq] at hcon
  have hassoc : (v' ++ [nl]) ++ x = v' ++ nl :: x := by simp
  rw [hassoc] at hcon
  have hcsplit : c = c.take u.length ++ v' := (List.take_append_drop _ c).symm
  have hnotpre : tag.isPrefixOf v' = false := hasTag_drop _ _ (hcsplit ▸ hc)
  rcases prefixSplit tag v' (nl :: x) hcon with hca | hca
  · rw [hca] at hnotpre
    exact absurd hnotpre (by simp)
  · obtain ⟨t2, ht2⟩ := (isPrefixOf_ex v' tag).mp hca
    cases t2 with
    | nil =>
      rw [List.append_nil] at ht2
      have htt : tag.isPrefixOf v' = true := by
        rw [← ht2]
        exact (isPrefixOf_ex tag tag).mpr ⟨[], by simp⟩
      rw [htt] at hnotpre
      exact absurd hnotpre (by simp)
    | cons d t2' =>
      rw [ht2, isPrefixOf_cancel] at hcon
      have hd : d = nl := by
        simp only [List.isPrefixOf, Bool.and_eq_true, beq_iff_eq] at hcon
        exact hcon.1
      apply nl_not_mem_tag
      rw [ht2, hd]
      simp

/-- Scan of a packed archive: the scanner finds exactly the packed entries, in
order, with each raw span being the content plus the separator newline (except
for the last entry), provided names contain no newline and contents contain no
occurrence of the marker text. -/
theorem scan_pack : ∀ (F : List (List Char × List Char)),
    (∀ e ∈ F, nl ∉ e.1) → (∀ e ∈ F, hasTag e.2 = false) →
    scanMarkers (packEntries F) = ([], withSep F) := by
  intro F
  induction F with
  | nil => intro _ _; rfl
  | cons e F' ih =>
    intro hn hc
    cases F' with
    | nil =>
      simp only [packEntries, List.isEmpty_nil, if_true, List.append_nil]
      rw [scan_marker_cons e.1 e.2 (hn e (by simp))]
      rw [scan_no_tag e.2 (hc e (by simp))]
      rfl
    | cons e' rest =>
      have hpack : packEntries (e :: e' :: rest) =
          marker e.1 ++ ((e.2 ++ [nl]) ++ packEntries (e' :: rest)) := by
        simp [packEntries]
      rw [hpack, scan_marker_cons e.1 _ (hn e (by simp))]
      rw [scan_gap (e.2 ++ [nl]) (packEntries (e' :: rest))
        (gap_no_tag e.2 _ (hc e (by simp)))]
      rw [ih (fun a ha => hn a (by simp [ha])) (fun a ha => hc a (by simp [ha]))]
      simp [withSep]

/-! Properties of the boundary stripping. -/

/-- A takeWhile with an equality test returns copies of the tested character. -/
theorem takeWhile_eq_replicate (x : Char) (l : List Char) :
    l.takeWhile (fun c => c == x) =
      List.replicate (l.takeWhile (fun c => c == x)).length x := by
  rw [List.eq_replicate_iff]
  refine ⟨rfl, fun b hb => ?_⟩
  have := List.mem_takeWhile_imp hb
  simpa using this

/-- A dropWhile removes nothing when no element satisfies the predicate. -/
theorem dropWhile_eq_self_of_none (p : Char → Bool) :
    ∀ l : List Char, (∀ c ∈ l, p c = false) → l.dropWhile p = l
  | [], _ => rfl
  | a :: l', h => by
    rw [List.dropWhile_cons, if_neg (by simp [h a (by simp)])]

/-- Splitting off the trailing run of copies of a character. -/
theorem reverse_dropWhile_decomp (x : Char) (l : List Char) :
    l = (l.reverse.dropWhile (fun c => c == x)).reverse ++
      List.replicate (l.reverse.takeWhile (fun c => c == x)).length x := by
  conv_lhs => rw [← List.reverse_reverse l]
  conv_lhs =>
    rw [← List.takeWhile_append_dropWhile (p := fun c => c == x) (l := l.reverse)]
  rw [List.reverse_append]
  congr 1
  conv_lhs => rw [takeWhile_eq_replicate x l.reverse]
  rw [List.reverse_replicate]

/-- Python strip removes exactly a leading and a trailing run of newlines,
keeping everything in between (so interior blank lines survive). -/
theorem stripNl_decomp (s : List Char) :
    ∃ a b, s = List.replicate a nl ++ stripNl s ++ List.replicate b nl := by
  refine ⟨(s.takeWhile (fun c => c == nl)).length,
    ((s.dropWhile (fun c => c == nl)).reverse.takeWhile (fun c => c == nl)).length,
    ?_⟩
  unfold stripNl
  conv_lhs =>
    rw [← List.takeWhile_append_dropWhile (p := fun c => c == nl) (l := s)]
  rw [List.append_assoc]
  congr 1
  · conv_lhs => rw [takeWhile_eq_replicate nl s]
  · exact reverse_dropWhile_decomp nl (s.dropWhile (fun c => c == nl))

/-- Texts without any newline are unchanged by the stripping. -/
theorem stripNl_no_nl (s : List Char) (h : nl ∉ s) : stripNl s = s := by
  unfold stripNl
  have h1 : s.dropWhile (fun c => c == nl) = s :=
    dropWhile_eq_self_of_none _ s
      (fun c hc => by
        simp only [beq_eq_false_iff_ne, ne_eq]
        intro he
        exact h (he ▸ hc))
  rw [h1]
  have h2 : s.reverse.dropWhile (fun c => c == nl) = s.reverse :=
    dropWhile_eq_self_of_none _ s.reverse
      (fun c hc => by
        simp only [beq_eq_false_iff_ne, ne_eq]
        intro he
        exact h (he ▸ (List.mem_reverse.mp hc)))
  rw [h2, List.reverse_reverse]

/-- The trailing separator newline disappears in the stripping, so spans with
and without it strip to the same content. -/
theorem stripNl_append_nl (s : List Char) : stripNl (s ++ [nl]) = stripNl s := by
  unfold stripNl
  by_cases h : s.dropWhile (fun c => c == nl) = []
  · have hall : ∀ x ∈ s, (x == nl) = true := List.dropWhile_eq_nil_iff.mp h
    have h2 : (s ++ [nl]).dropWhile (fun c => c == nl) = [] := by
      rw [List.dropWhile_eq_nil_iff]
      intro x hx
      rcases List.mem_append.mp hx with hx | hx
      · exact hall x hx
      · simp only [List.mem_singleton] at hx
        simp [hx]
    rw [h, h2]
  · rw [List.dropWhile_append]
    simp only [List.isEmpty_eq_true, h, if_false]
    rw [List.reverse_append]
    simp only [List.reverse_cons, List.reverse_nil, List.nil_append,
      List.singleton_append, List.dropWhile_cons]
    simp

/-- Contents that neither start nor end with a newline are unchanged by the
stripping. -/
theorem stripNl_boundary (s : List Char) (h1 : s.head? ≠ some nl)
    (h2 : s.getLast? ≠ some nl) : stripNl s = s := by
  unfold stripNl
  have hd : s.dropWhile (fun c => c == nl) = s := by
    cases s with
    | nil => rfl
    | cons a s' =>
      rw [List.dropWhile_cons, if_neg]
      simp only [List.head?_cons, ne_eq, Option.some.injEq] at h1
      simp [h1]
  rw [hd]
  have hr : s.reverse.dropWhile (fun c => c == nl) = s.reverse := by
    rw [List.getLast?_eq_head?_reverse] at h2
    cases hrev : s.reverse with
    | nil => rfl
    | cons a s' =>
      rw [List.dropWhile_cons, if_neg]
      rw [hrev, List.head?_cons] at h2
      simp only [ne_eq, Option.some.injEq] at h2
      simp [h2]
  rw [hr, List.reverse_reverse]

/-- Stripping the raw spans of packed entries gives the same result whether or
not the separator newlines are included, for any renaming of the entries. -/
theorem withSep_map_strip (f : List Char → List Char) :
    ∀ F : List (List Char × List Char),
      (withSep F).map (fun e => (f e.1, stripNl e.2)) =
        F.map (fun e => (f e.1, stripNl e.2))
  | [] => rfl
  | [e] => rfl
  | e :: e' :: rest => by
    simp only [withSep, List.map_cons, stripNl_append_nl]
    rw [← List.map_cons (fun e => (f e.1, stripNl e.2)) e' rest]
    rw [withSep_map_strip f (e' :: rest)]

/-- Recomposition: the scanner tiles its input exactly into the leading gap
followed by, for each match in order, the marker line and then the raw span
running to the start of the next match (or to the end of input). -/
theorem scan_recompose : ∀ s : List Char,
    s = (scanMarkers s).1 ++
      ((scanMarkers s).2.map (fun e => marker e.1 ++ e.2)).flatten := by
  intro s
  induction s using scan_induct with
  | h1 => rfl
  | h2 c cs hm ih =>
    rw [scanMarkers_marker _ hm]
    simp only [List.map_cons, List.flatten_cons, List.nil_append]
    have hdec := (marker_decomp (c :: cs) hm).1
    conv_lhs => rw [hdec, ih]
    unfold marker
    simp
  | h3 c cs hm ih =>
    rw [scanMarkers_cons_not _ _ hm]
    simp only [List.cons_append]
    exact congrArg (c :: ·) ih

/-! The code-point order on character lists and the model of Python sorted. -/

theorem lexLt_nil_right (a : List Char) : lexLt a [] = false := by
  cases a <;> rfl

theorem lexLt_irrefl : ∀ a : List Char, lexLt a a = false
  | [] => rfl
  | c :: cs => by
    simp only [lexLt, lt_irrefl, if_false]
    exact lexLt_irrefl cs

theorem lexLt_trans : ∀ a b c : List Char,
    lexLt a b = true → lexLt b c = true → lexLt a c = true
  | _, _, [], _, h2 => absurd h2 (by simp [lexLt_nil_right])
  | _, [], _ :: _, h1, _ => absurd h1 (by simp [lexLt_nil_right])
  | [], _ :: _, _ :: _, _, _ => rfl
  | x :: xs, y :: ys, z :: zs, h1, h2 => by
    simp only [lexLt] at h1 h2 ⊢
    rcases lt_trichotomy x y with hxy | rfl | hxy
    · rcases lt_trichotomy y z with hyz | rfl | hyz
      · rw [if_pos (lt_trans hxy hyz)]
      · rw [if_pos hxy]
      · rw [if_neg (lt_asymm hyz), if_pos hyz] at h2
        exact absurd h2 (by simp)
    · rw [if_neg (lt_irrefl x), if_neg (lt_irrefl x)] at h1
      rcases lt_trichotomy x z with hxz | rfl | hxz
      · rw [if_pos hxz]
      · rw [if_neg (lt_irrefl x), if_neg (lt_irrefl x)] at h2 ⊢
        exact lexLt_trans xs ys zs h1 h2
      · rw [if_neg (lt_asymm hxz), if_pos hxz] at h2
        exact absurd h2 (by simp)
    · rw [if_neg (lt_asymm hxy), if_pos hxy] at h1
      exact absurd h1 (by simp)

theorem lexLt_eq_of_not : ∀ a b : List Char,
    lexLt a b = false → lexLt b a = false → a = b
  | [], [], _, _ => rfl
  | [], _ :: _, h1, _ => absurd h1 (by simp [lexLt])
  | _ :: _, [], _, h2 => absurd h2 (by simp [lexLt])
  | x :: xs, y :: ys, h1, h2 => by
    simp only [lexLt] at h1 h2
    rcases lt_trichotomy x y with hxy | rfl | hxy
    · rw [if_pos hxy] at h1
      exact absurd h1 (by simp)
    · rw [if_neg (lt_irrefl x), if_neg (lt_irrefl x)] at h1 h2
      rw [lexLt_eq_of_not xs ys h1 h2]
    · rw [if_pos hxy] at h2
      exact absurd h2 (by simp)

theorem lexLt_asymm (a b : List Char) (h : lexLt a b = true) : lexLt b a = false := by
  by_contra hc
  rw [Bool.not_eq_false] at hc
  have := lexLt_trans a b a h hc
  rw [lexLt_irrefl] at this
  exact absurd this (by simp)

/-- A common front part does not affect the code-point comparison. -/
theorem lexLt_append_cancel : ∀ (p a b : List Char),
    lexLt (p ++ a) (p ++ b) = lexLt a b
  | [], _, _ => rfl
  | c :: ps, a, b => by
    simp only [List.cons_append, lexLt]
    rw [if_neg (lt_irrefl c), if_neg (lt_irrefl c)]
    exact lexLt_append_cancel ps a b

theorem insertLe_perm (le : α → α → Bool) (a : α) :
    ∀ l : List α, (insertLe le a l).Perm (a :: l)
  | [] => List.Perm.refl _
  | b :: bs => by
    unfold insertLe
    by_cases h : le a b = true
    · rw [if_pos h]
    · rw [if_neg h]
      exact ((insertLe_perm le a bs).cons b).trans (List.Perm.swap a b bs)

theorem sortLe_perm (le : α → α → Bool) : ∀ l : List α, (sortLe le l).Perm l
  | [] => List.Perm.refl _
  | a :: as =>
    (insertLe_perm le a (sortLe le as)).trans ((sortLe_perm le as).cons a)

theorem pairwise_insertLe (le : α → α → Bool)
    (total : ∀ a b, le a b = true ∨ le b a = true)
    (htr : ∀ a b c, le a b = true → le b c = true → le a c = true) (a : α) :
    ∀ l : List α, l.Pairwise (fun x y => le x y = true) →
      (insertLe le a l).Pairwise (fun x y => le x y = true)
  | [], _ => by simp [insertLe]
  | b :: bs, hp => by
    unfold insertLe
    by_cases h : le a b = true
    · rw [if_pos h]
      refine List.Pairwise.cons ?_ hp
      intro y hy
      rcases List.mem_cons.mp hy with rfl | hy
      · exact h
      · exact htr a b y h (List.rel_of_pairwise_cons hp hy)
    · rw [if_neg h]
      have hba : le b a = true := (total a b).resolve_left h
      obtain ⟨hb, hbs⟩ := List.pairwise_cons.mp hp
      refine List.Pairwise.cons ?_ (pairwise_insertLe le total htr a bs hbs)
      intro y hy
      have hmem : y ∈ a :: bs := (insertLe_perm le a bs).mem_iff.mp hy
      rcases List.mem_cons.mp hmem with rfl | hy'
      · exact hba
      · exact hb y hy'

theorem pairwise_sortLe (le : α → α → Bool)
    (total : ∀ a b, le a b = true ∨ le b a = true)
    (htr : ∀ a b c, le a b = true → le b c = true → le a c = true) :
    ∀ l : List α, (sortLe le l).Pairwise (fun x y => le x y = true)
  | [] => List.Pairwise.nil
  | a :: as =>
    pairwise_insertLe le total htr a _ (pairwise_sortLe le total htr as)

theorem pathLe_total (e1 e2 : List Char × List Char) :
    pathLe e1 e2 = true ∨ pathLe e2 e1 = true := by
  unfold pathLe
  by_cases h : lexLt e2.1 e1.1 = true
  · right
    rw [lexLt_asymm _ _ h]
    rfl
  · left
    rw [Bool.not_eq_true] at h
    rw [h]
    rfl

theorem pathLe_trans (e1 e2 e3 : List Char × List Char)
    (h1 : pathLe e1 e2 = true) (h2 : pathLe e2 e3 = true) :
    pathLe e1 e3 = true := by
  unfold pathLe at h1 h2 ⊢
  rw [Bool.not_eq_true'] at h1 h2 ⊢
  by_contra hc
  rw [Bool.not_eq_false] at hc
  by_cases h12 : lexLt e1.1 e2.1 = true
  · have h32 := lexLt_trans _ _ _ hc h12
    rw [h2] at h32
    exact absurd h32 (by simp)
  · rw [Bool.not_eq_true] at h12
    have heq : e1.1 = e2.1 := lexLt_eq_of_not _ _ h12 h1
    rw [heq] at hc
    rw [h2] at hc
    exact absurd hc (by simp)

/-! Glob matching, path joining and the combined sorted file list. -/

/-- Whether a name is matched by at least one of the four glob patterns of
pack.py. -/
def matchesAny (n : List Char) : Bool :=
  globMatch n swiftExt || globMatch n plistExt || globMatch n jsonExt ||
    globMatch n entitlementsExt

theorem endsWith_drop (n ext : List Char) (h : endsWith n ext = true) :
    ext.length ≤ n.length ∧ n.drop (n.length - ext.length) = ext := by
  unfold endsWith at h
  rw [Bool.and_eq_true] at h
  exact ⟨of_decide_eq_true h.1, of_decide_eq_true h.2⟩

/-- Two extensions that both match the same name are nested at its end. -/
theorem endsWith_unique (n a b : List Char) (ha : endsWith n a = true)
    (hb : endsWith n b = true) (hl : a.length ≤ b.length) :
    a = b.drop (b.length - a.length) := by
  obtain ⟨hla, hda⟩ := endsWith_drop n a ha
  obtain ⟨hlb, hdb⟩ := endsWith_drop n b hb
  calc a = n.drop (n.length - a.length) := hda.symm
    _ = (n.drop (n.length - b.length)).drop (b.length - a.length) := by
        rw [List.drop_drop]
        congr 1
        omega
    _ = b.drop (b.length - a.length) := by rw [hdb]

/-- No name matches two different patterns of the four, because no extension of
the set is a suffix of another. -/
theorem globMatch_unique (n a b : List Char) (ha : globMatch n a = true)
    (hb : globMatch n b = true)
    (hsa : a = swiftExt ∨ a = plistExt ∨ a = jsonExt ∨ a = entitlementsExt)
    (hsb : b = swiftExt ∨ b = plistExt ∨ b = jsonExt ∨ b = entitlementsExt) :
    a = b := by
  unfold globMatch at ha hb
  rw [Bool.and_eq_true] at ha hb
  have hea := ha.2
  have heb := hb.2
  by_contra hne
  have key : ∀ x y : List Char, endsWith n x = true → endsWith n y = true →
      x.length ≤ y.length → x ≠ y.drop (y.length - x.length) → False :=
    fun x y hx hy hxy hneq => hneq (endsWith_unique n x y hx hy hxy)
  rcases hsa with rfl | rfl | rfl | rfl <;> rcases hsb with rfl | rfl | rfl | rfl
  all_goals first
    | exact hne rfl
    | exact key _ _ hea heb (by decide) (by decide)
    | exact key _ _ heb hea (by decide) (by decide)

/-- Concatenating the filters of two disjoint predicates is a permutation of
the filter of their disjunction. -/
theorem filter_append_perm_or (p q : α → Bool)
    (hdisj : ∀ x, ¬(p x = true ∧ q x = true)) :
    ∀ l : List α,
      (l.filter p ++ l.filter q).Perm (l.filter (fun x => p x || q x))
  | [] => List.Perm.refl _
  | x :: xs => by
    have ih := filter_append_perm_or p q hdisj xs
    by_cases hp : p x = true
    · have hq : q x = false := by
        rcases Bool.eq_false_or_eq_true (q x) with h | h
        · exact absurd ⟨hp, h⟩ (hdisj x)
        · exact h
      simp only [List.filter_cons, hp, hq, Bool.true_or, if_true,
        Bool.false_eq_true, if_false, List.cons_append]
      exact ih.cons x
    · rw [Bool.not_eq_true] at hp
      by_cases hq : q x = true
      · simp only [List.filter_cons, hp, hq, Bool.false_or, if_true,
          Bool.false_eq_true, if_false]
        exact (List.perm_middle).trans (ih.cons x)
      · rw [Bool.not_eq_true] at hq
        simp only [List.filter_cons, hp, hq, Bool.or_self,
          Bool.false_eq_true, if_false]
        exact ih

theorem matchesAny_disjoint_pair (ext1 ext2 : List Char)
    (h1 : ext1 = swiftExt ∨ ext1 = plistExt ∨ ext1 = jsonExt ∨ ext1 = entitlementsExt)
    (h2 : ext2 = swiftExt ∨ ext2 = plistExt ∨ ext2 = jsonExt ∨ ext2 = entitlementsExt)
    (hne : ext1 ≠ ext2) (e : List Char × List Char) :
    ¬(globMatch e.1 ext1 = true ∧ globMatch e.1 ext2 = true) := by
  rintro ⟨ha, hb⟩
  exact hne (globMatch_unique e.1 ext1 ext2 ha hb h1 h2)

/-- The four filtered lists of pack.py concatenated are a permutation of a
single filter over the whole listing. -/
theorem filter_four_perm (l : List (List Char × List Char)) :
    (l.filter (fun e => globMatch e.1 swiftExt) ++
      l.filter (fun e => globMatch e.1 plistExt) ++
      l.filter (fun e => globMatch e.1 jsonExt) ++
      l.filter (fun e => globMatch e.1 entitlementsExt)).Perm
      (l.filter (fun e => matchesAny e.1)) := by
  have d12 := fun e => matchesAny_disjoint_pair swiftExt plistExt
    (Or.inl rfl) (Or.inr (Or.inl rfl)) (by decide) e
  have h12 := filter_append_perm_or (fun e => globMatch e.1 swiftExt)
    (fun e => globMatch e.1 plistExt) d12 l
  have d123 : ∀ e : List Char × List Char,
      ¬((globMatch e.1 swiftExt || globMatch e.1 plistExt) = true ∧
        globMatch e.1 jsonExt = true) := by
    rintro e ⟨hor, hj⟩
    rcases Bool.or_eq_true_iff.mp hor with h | h
    · exact matchesAny_disjoint_pair swiftExt jsonExt (Or.inl rfl)
        (Or.inr (Or.inr (Or.inl rfl))) (by decide) e ⟨h, hj⟩
    · exact matchesAny_disjoint_pair plistExt jsonExt (Or.inr (Or.inl rfl))
        (Or.inr (Or.inr (Or.inl rfl))) (by decide) e ⟨h, hj⟩
  have h123 := filter_append_perm_or
    (fun e => globMatch e.1 swiftExt || globMatch e.1 plistExt)
    (fun e => globMatch e.1 jsonExt) d123 l
  have d1234 : ∀ e : List Char × List Char,
      ¬((globMatch e.1 swiftExt || globMatch e.1 plistExt ||
          globMatch e.1 jsonExt) = true ∧
        globMatch e.1 entitlementsExt = true) := by
    rintro e ⟨hor, hent⟩
    rcases Bool.or_eq_true_iff.mp hor with hor' | h
    · rcases Bool.or_eq_true_iff.mp hor' with h | h
      · exact matchesAny_disjoint_pair swiftExt entitlementsExt (Or.inl rfl)
          (Or.inr (Or.inr (Or.inr rfl))) (by decide) e ⟨h, hent⟩
      · exact matchesAny_disjoint_pair plistExt entitlementsExt
          (Or.inr (Or.inl rfl)) (Or.inr (Or.inr (Or.inr rfl))) (by decide) e
          ⟨h, hent⟩
    · exact matchesAny_disjoint_pair jsonExt entitlementsExt
        (Or.inr (Or.inr (Or.inl rfl))) (Or.inr (Or.inr (Or.inr rfl)))
        (by decide) e ⟨h, hent⟩
  have h1234 := filter_append_perm_or
    (fun e => globMatch e.1 swiftExt || globMatch e.1 plistExt ||
      globMatch e.1 jsonExt)
    (fun e => globMatch e.1 entitlementsExt) d1234 l
  unfold matchesAny
  exact ((h12.append (List.Perm.refl _)).append (List.Perm.refl _)).trans
    ((h123.append (List.Perm.refl _)).trans h1234)

theorem joinPath_dirPre (a b : List Char) (hb : sep ∉ b) :
    joinPath a b = dirPre a ++ b := by
  unfold joinPath dirPre
  have hhead : ¬ b.head? = some sep := by
    cases b with
    | nil => simp
    | cons x xs =>
      simp only [List.head?_cons, Option.some.injEq]
      intro h
      exact hb (by simp [h])
  rw [if_neg hhead]
  by_cases ha : a = []
  · rw [if_pos ha, if_pos ha]
    simp
  · rw [if_neg ha, if_neg ha]
    by_cases hl : a.getLast? = some sep
    · rw [if_pos hl, if_pos hl]
    · rw [if_neg hl, if_neg hl]
      simp

theorem dirPre_shape (a : List Char) :
    dirPre a = [] ∨ ∃ d, dirPre a = d ++ [sep] := by
  unfold dirPre
  by_cases ha : a = []
  · left
    rw [if_pos ha]
  · right
    by_cases hl : a.getLast? = some sep
    · rw [if_neg ha, if_pos hl]
      refine ⟨a.dropLast, ?_⟩
      have hlast := List.dropLast_append_getLast ha
      have hgl : a.getLast ha = sep := by
        have h2 := List.getLast?_eq_getLast a ha
        rw [h2] at hl
        exact Option.some.inj hl
      conv_lhs => rw [← hlast]
      rw [hgl]
    · rw [if_neg ha, if_neg hl]
      exact ⟨a, rfl⟩

theorem takeWhile_all (p : Char → Bool) :
    ∀ l : List Char, (∀ c ∈ l, p c = true) → l.takeWhile p = l
  | [], _ => rfl
  | a :: l', h => by
    rw [List.takeWhile_cons, if_pos (h a (by simp)),
      takeWhile_all p l' (fun c hc => h c (by simp [hc]))]

/-- The base name of a joined path recovers the separator-free name. -/
theorem baseName_dirPre (a n : List Char) (hn : sep ∉ n) :
    baseName (dirPre a ++ n) = n := by
  have hall : ∀ c ∈ n.reverse, (c != sep) = true := by
    intro c hc
    rw [bne_iff_ne]
    intro h
    exact hn (h ▸ List.mem_reverse.mp hc)
  rcases dirPre_shape a with h | ⟨d, hd⟩
  · rw [h, List.nil_append]
    unfold baseName
    rw [takeWhile_all _ n.reverse hall, List.reverse_reverse]
  · rw [hd]
    unfold baseName
    have hshape : (d ++ [sep] ++ n).reverse = n.reverse ++ sep :: d.reverse := by
      simp
    rw [hshape]
    rw [(takeWhile_all_append (fun c => c != sep) n.reverse sep d.reverse hall
      (by simp)).1]
    rw [List.reverse_reverse]

/-- Structure of every element of the sorted combined file list: it comes from
a listing entry matched by some pattern, with the directory joined in front. -/
theorem allFiles_mem (dir : List Char) (listing : List (List Char × List Char))
    (e : List Char × List Char) (he : e ∈ allFiles dir listing) :
    ∃ a ∈ listing, e = (joinPath dir a.1, a.2) ∧ matchesAny a.1 = true := by
  unfold allFiles at he
  have hmem := (sortLe_perm pathLe _).mem_iff.mp he
  have hglob : ∀ ext, ext = swiftExt ∨ ext = plistExt ∨ ext = jsonExt ∨
      ext = entitlementsExt → e ∈ globFiles dir listing ext →
      ∃ a ∈ listing, e = (joinPath dir a.1, a.2) ∧ matchesAny a.1 = true := by
    intro ext hset hememb
    unfold globFiles at hememb
    obtain ⟨a, ha, hae⟩ := List.mem_map.mp hememb
    obtain ⟨halist, hamatch⟩ := List.mem_filter.mp ha
    refine ⟨a, halist, hae.symm, ?_⟩
    unfold matchesAny
    rcases hset with rfl | rfl | rfl | rfl <;> simp [hamatch]
  simp only [List.mem_append] at hmem
  rcases hmem with ((h | h) | h) | h
  · exact hglob swiftExt (Or.inl rfl) h
  · exact hglob plistExt (Or.inr (Or.inl rfl)) h
  · exact hglob jsonExt (Or.inr (Or.inr (Or.inl rfl))) h
  · exact hglob entitlementsExt (Or.inr (Or.inr (Or.inr rfl))) h

/-- The sorted combined file list is a permutation of the matched part of the
listing, joined with the directory. -/
theorem allFiles_perm (dir : List Char) (listing : List (List Char × List Char)) :
    (allFiles dir listing).Perm
      ((listing.filter (fun e => matchesAny e.1)).map
        (fun e => (joinPath dir e.1, e.2))) := by
  unfold allFiles globFiles
  refine (sortLe_perm pathLe _).trans ?_
  have hmaps :
      (listing.filter (fun e => globMatch e.1 swiftExt)).map
          (fun e => (joinPath dir e.1, e.2)) ++
        (listing.filter (fun e => globMatch e.1 plistExt)).map
          (fun e => (joinPath dir e.1, e.2)) ++
        (listing.filter (fun e => globMatch e.1 jsonExt)).map
          (fun e => (joinPath dir e.1, e.2)) ++
        (listing.filter (fun e => globMatch e.1 entitlementsExt)).map
          (fun e => (joinPath dir e.1, e.2)) =
      ((listing.filter (fun e => globMatch e.1 swiftExt) ++
        listing.filter (fun e => globMatch e.1 plistExt) ++
        listing.filter (fun e => globMatch e.1 jsonExt) ++
        listing.filter (fun e => globMatch e.1 entitlementsExt)).map
          (fun e => (joinPath dir e.1, e.2))) := by
    simp [List.map_append]
  rw [hmaps]
  exact (filter_four_perm listing).map _

/-! Further helper lemmas feeding the claim theorems. -/

/-- A text without any newline contains no match at all, because the pattern
ends in a newline. -/
theorem scan_no_newline : ∀ s : List Char, nl ∉ s → scanMarkers s = (s, []) := by
  intro s
  induction s using scan_induct with
  | h1 => intro _; rfl
  | h2 c cs hm ih =>
    intro h
    exfalso
    unfold isMarkerStart at hm
    rw [Bool.and_eq_true] at hm
    obtain ⟨x, hx, hxe⟩ := List.any_eq_true.mp hm.2
    rw [beq_iff_eq] at hxe
    exact h (hxe ▸ List.mem_of_mem_drop hx)
  | h3 c cs hm ih =>
    intro h
    rw [scanMarkers_cons_not _ _ hm,
      ih (fun hh => h (List.mem_cons_of_mem c hh))]

/-- Every content is embedded verbatim (byte for byte) in the packed archive. -/
theorem packEntries_embeds : ∀ (F : List (List Char × List Char)), ∀ e ∈ F,
    ∃ u w, packEntries F = u ++ e.2 ++ w
  | [], e, he => absurd he (List.not_mem_nil e)
  | f :: rest, e, he => by
    rcases List.mem_cons.mp he with rfl | he'
    · refine ⟨marker e.1,
        (if rest.isEmpty then ([] : List Char) else [nl]) ++ packEntries rest, ?_⟩
      simp [packEntries]
    · obtain ⟨u, w, hw⟩ := packEntries_embeds rest e he'
      refine ⟨marker f.1 ++ f.2 ++
        (if rest.isEmpty then ([] : List Char) else [nl]) ++ u, w, ?_⟩
      simp [packEntries, hw]

theorem matchesAny_false (n : List Char) (h : matchesAny n = false) :
    globMatch n swiftExt = false ∧ globMatch n plistExt = false ∧
    globMatch n jsonExt = false ∧ globMatch n entitlementsExt = false := by
  unfold matchesAny at h
  rcases Bool.or_eq_false_iff.mp h with ⟨h123, h4⟩
  rcases Bool.or_eq_false_iff.mp h123 with ⟨h12, h3⟩
  rcases Bool.or_eq_false_iff.mp h12 with ⟨h1, h2⟩
  exact ⟨h1, h2, h3, h4⟩

/-- The entries pack.py writes are a permutation of the listing itself, when
every name is matched by some pattern and names are free of separators. -/
theorem pack_entries_perm (dir : List Char) (F : List (List Char × List Char))
    (hsep : ∀ e ∈ F, sep ∉ e.1) (hmatch : ∀ e ∈ F, matchesAny e.1 = true) :
    ((allFiles dir F).map (fun e => (baseName e.1, e.2))).Perm F := by
  have h1 := (allFiles_perm dir F).map (fun e => (baseName e.1, e.2))
  have hfil : F.filter (fun e => matchesAny e.1) = F :=
    List.filter_eq_self.mpr hmatch
  rw [hfil, List.map_map] at h1
  have h2 : F.map ((fun e => (baseName e.1, e.2)) ∘
      (fun e => (joinPath dir e.1, e.2))) = F := by
    have hpt : ∀ e ∈ F, ((fun e => (baseName e.1, e.2)) ∘
        (fun e => (joinPath dir e.1, e.2))) e = (fun a => a) e := by
      intro e he
      simp only [Function.comp]
      rw [joinPath_dirPre dir e.1 (hsep e he), baseName_dirPre dir e.1 (hsep e he)]
    rw [List.map_congr_left hpt, List.map_id']
  rw [h2] at h1
  exact h1

/-- Raw spans with separators of a nonempty entry list are nonempty. -/
theorem withSep_ne_nil (F : List (List Char × List Char)) (h : F ≠ []) :
    withSep F ≠ [] := by
  cases F with
  | nil => exact absurd rfl h
  | cons a l =>
    cases l with
    | nil => simp [withSep]
    | cons b l' => simp [withSep]

/-- Sorted file lists are strictly ordered on full paths once the base names
are distinct. -/
theorem allFiles_pairwise_strict (dir : List Char)
    (F : List (List Char × List Char)) (hnodup : (F.map Prod.fst).Nodup)
    (hsep : ∀ e ∈ F, sep ∉ e.1) :
    (allFiles dir F).Pairwise (fun a b => lexLt a.1 b.1 = true) := by
  have hsorted : (allFiles dir F).Pairwise (fun a b => pathLe a b = true) :=
    pairwise_sortLe pathLe pathLe_total pathLe_trans _
  have hpaths : ((allFiles dir F).map Prod.fst).Nodup := by
    have hperm := (allFiles_perm dir F).map Prod.fst
    refine hperm.symm.nodup ?_
    rw [List.map_map]
    have hshape : (F.filter (fun e => matchesAny e.1)).map
        (Prod.fst ∘ (fun e => (joinPath dir e.1, e.2))) =
        ((F.filter (fun e => matchesAny e.1)).map Prod.fst).map
          (fun n => dirPre dir ++ n) := by
      rw [List.map_map]
      refine List.map_congr_left ?_
      intro e he
      simp only [Function.comp]
      exact joinPath_dirPre dir e.1
        (hsep e (List.mem_of_mem_filter he))
    rw [hshape]
    refine List.Nodup.map ?_ ?_
    · intro x y hxy
      exact List.append_cancel_left hxy
    · exact ((List.filter_sublist F).map Prod.fst).nodup hnodup
  have hne : (allFiles dir F).Pairwise (fun a b => a.1 ≠ b.1) := by
    have h2 : ((allFiles dir F).map Prod.fst).Pairwise (fun a b => a ≠ b) := hpaths
    exact List.pairwise_map.mp h2
  refine (hsorted.and hne).imp ?_
  intro a b hab
  rcases Bool.eq_false_or_eq_true (lexLt a.1 b.1) with h | h
  · exact h
  · have h1 : lexLt b.1 a.1 = false := by
      have h2 := hab.1
      unfold pathLe at h2
      rwa [Bool.not_eq_true'] at h2
    exact absurd (lexLt_eq_of_not a.1 b.1 h h1) hab.2

/-- The sorted combined file list is canonical: any enumeration order of the
same directory contents produces the same list, once base names are distinct. -/
theorem allFiles_canonical (dir : List Char)
    (F F' : List (List Char × List Char)) (hperm : F'.Perm F)
    (hnodup : (F.map Prod.fst).Nodup) (hsep : ∀ e ∈ F, sep ∉ e.1) :
    allFiles dir F' = allFiles dir F := by
  have hnodup' : (F'.map Prod.fst).Nodup := (hperm.map Prod.fst).symm.nodup hnodup
  have hsep' : ∀ e ∈ F', sep ∉ e.1 := fun e he => hsep e (hperm.mem_iff.mp he)
  have hGperm : (allFiles dir F').Perm (allFiles dir F) := by
    unfold allFiles globFiles
    refine (sortLe_perm pathLe _).trans (List.Perm.trans ?_ (sortLe_perm pathLe _).symm)
    exact ((((hperm.filter _).map _).append
      ((hperm.filter _).map _)).append
      ((hperm.filter _).map _)).append
      ((hperm.filter _).map _)
  have h1 := allFiles_pairwise_strict dir F hnodup hsep
  have h2 := allFiles_pairwise_strict dir F' hnodup' hsep'
  haveI : IsAntisymm (List Char × List Char) (fun a b => lexLt a.1 b.1 = true) :=
    ⟨fun a b hab hba => by
      rw [lexLt_asymm _ _ hab] at hba
      exact absurd hba (by simp)⟩
  exact List.eq_of_perm_of_sorted hGperm h2 h1

/-! Concrete texts used in counterexamples and witnesses. -/

def srcDirS : String := "src"

def outDirS : String := "out"

def rtNameS : String := "a.swift"

def rtContentS : String := "a\n"

def rtArchiveS : String := "// FILE: a.swift\na\n"

def rtOutPathS : String := "out/a.swift"

def rtStrippedS : String := "a"

def c2NameS : String := "b.swift"

def c2ContentS : String := "\n\nx"

def c3InputS : String := "x // FILE: a.swift\nok"

def c3NameS : String := "a.swift"

def c3ContentS : String := "ok"

def c6LoneS : String := "// FILE: a.swift"

def c6NameS : String := "m.swift"

def c6BodyS : String := "body "

def c6DanglingS : String := "n.swift"

def c7OtherNameS : String := "README.md"

def c7OtherTextS : String := "hi"

def c9ArchiveS : String := "// FILE: /tmp/evil.swift\nhacked"

def c9PathS : String := "/tmp/evil.swift"

def c9TextS : String := "hacked"

def c10InputS : String := "hello world"

/-- The files unpack_files writes are exactly the recovered entries, each sent
to the join of the output directory with its marker name. -/
theorem unpack_files_written (content output_dir : List Char) :
    (unpack_files true content output_dir).written =
      (unpackEntries content).map (fun e => (joinPath output_dir e.1, e.2)) := by
  unfold unpack_files
  rw [if_neg (by simp)]
  by_cases h : (scanMarkers content).2 = []
  · rw [if_pos h]
    unfold unpackEntries
    rw [h]
    rfl
  · rw [if_neg h]

/-! The claim theorems. -/

/-- C3 counterexample: in this input the marker text occurs only in the middle
of the first line, never at the start of a line, yet unpack.py still treats it
as a marker and produces an entry named a.swift with content ok.  This refutes
the claim that an occurrence of the marker text that does not start a line is
not a marker. -/
theorem c3_counterexample :
    unpackEntries c3InputS.data = [(c3NameS.data, c3ContentS.data)] := by decide

/-- C3 (amended): the unpacker recognizes a marker wherever the literal marker
text occurs, at any position of a line (scanning left to right, skipping over
the inside of earlier matches), provided some newline follows; line starts play
no role.  In particular at least one entry is found exactly when some split of
the input places the marker text (with a later newline) at the split point. -/
theorem c3_marker_recognition (s : List Char) :
    (scanMarkers s).2 ≠ [] ↔ ∃ u v, s = u ++ v ∧ isMarkerStart v = true := by
  induction s using scan_induct with
  | h1 =>
    constructor
    · intro h
      exact absurd rfl h
    · rintro ⟨u, v, huv, hm⟩
      have hv : v = [] := (List.append_eq_nil.mp huv.symm).2
      rw [hv] at hm
      exact absurd hm (by decide)
  | h2 c cs hm ih =>
    constructor
    · intro _
      exact ⟨[], c :: cs, rfl, hm⟩
    · intro _
      rw [scanMarkers_marker _ hm]
      simp
  | h3 c cs hm ih =>
    rw [scanMarkers_cons_not _ _ hm]
    constructor
    · intro h
      obtain ⟨u, v, huv, hv⟩ := ih.mp h
      exact ⟨c :: u, v, by rw [List.cons_append, huv], hv⟩
    · rintro ⟨u, v, huv, hv⟩
      cases u with
      | nil =>
        rw [List.nil_append] at huv
        rw [← huv] at hv
        rw [hv] at hm
        exact absurd hm (by simp)
      | cons x u' =>
        rw [List.cons_append] at huv
        injection huv with h1 h2
        exact ih.mpr ⟨u', v, h2, hv⟩

/-- C4: for every marker the unpacker finds, the raw span runs from immediately
after the marker line's terminator up to the start of the next marker (end of
input for the last one): the input is recomposed exactly from the leading gap
and the marker-line-plus-span blocks.  The entry content is that span stripped
of leading and trailing newline characters only, so interior blank lines are
preserved: every span is a run of newlines, then the content, then a run of
newlines. -/
theorem c4_content_spans (s : List Char) :
    s = (scanMarkers s).1 ++
      ((scanMarkers s).2.map (fun e => marker e.1 ++ e.2)).flatten ∧
    unpackEntries s = (scanMarkers s).2.map (fun e => (e.1, stripNl e.2)) ∧
    ∀ e ∈ (scanMarkers s).2,
      ∃ a b, e.2 = List.replicate a nl ++ stripNl e.2 ++ List.replicate b nl :=
  ⟨scan_recompose s, rfl, fun e _ => stripNl_decomp e.2⟩

/-- C6 counterexample: an archive whose only line is a marker line without a
trailing newline.  The claim says the unpacker still recognizes it and creates
the entry with empty content; in fact the regular expression requires the
newline, so no markers are found, nothing is written, and the no-markers
message is reported (after the output directory was created). -/
theorem c6_counterexample :
    unpack_files true c6LoneS.data outDirS.data =
      ⟨true, [], UnpackMsg.noMarkers⟩ := by decide

/-- C6 (amended): a final marker line lacking its trailing newline is not
recognized as a marker.  Its text is absorbed into the content span of the last
recognized marker (end of input closes that span), and when there is no earlier
recognized marker at all the unpacker finds no markers. -/
theorem c6_trailing_marker (n c m : List Char)
    (hn : nl ∉ n) (hc : nl ∉ c) (hm : nl ∉ m) :
    unpackEntries (marker n ++ (c ++ tag ++ m)) = [(n, c ++ tag ++ m)] ∧
    (scanMarkers (tag ++ m)).2 = [] := by
  have hnotail : nl ∉ c ++ tag ++ m := by
    intro h
    rcases List.mem_append.mp h with h' | h'
    · rcases List.mem_append.mp h' with h'' | h''
      · exact hc h''
      · exact nl_not_mem_tag h''
    · exact hm h'
  constructor
  · unfold unpackEntries
    rw [scan_marker_cons n (c ++ tag ++ m) hn]
    rw [scan_no_newline (c ++ tag ++ m) hnotail]
    simp only [List.map_cons, List.map_nil]
    rw [stripNl_no_nl _ hnotail]
  · have : nl ∉ tag ++ m := by
      intro h
      rcases List.mem_append.mp h with h' | h'
      · exact nl_not_mem_tag h'
      · exact hm h'
    rw [scan_no_newline (tag ++ m) this]

/-- Witness for the amended C6 at a concrete archive text. -/
theorem c6_trailing_marker_witness :
    nl ∉ c6NameS.data ∧ nl ∉ c6BodyS.data ∧ nl ∉ (tag ++ c6DanglingS.data) ∧
    (unpackEntries (marker c6NameS.data ++
        (c6BodyS.data ++ tag ++ (tag ++ c6DanglingS.data))) =
      [(c6NameS.data, c6BodyS.data ++ tag ++ (tag ++ c6DanglingS.data))] ∧
    (scanMarkers (tag ++ (tag ++ c6DanglingS.data))).2 = []) :=
  ⟨by decide, by decide, by decide,
    c6_trailing_marker c6NameS.data c6BodyS.data (tag ++ c6DanglingS.data)
      (by decide) (by decide) (by decide)⟩

/-- C7: a directory whose listing has no entry matched by any of the four glob
patterns makes pack_files return the no-matching-files report without touching
the output file. -/
theorem c7_empty_pack (source_dir : List Char)
    (listing : List (List Char × List Char))
    (h : ∀ e ∈ listing, matchesAny e.1 = false) :
    pack_files true source_dir listing = PackOutcome.noFiles := by
  have hnil : ∀ ext, (ext = swiftExt ∨ ext = plistExt ∨ ext = jsonExt ∨
      ext = entitlementsExt) →
      listing.filter (fun e => globMatch e.1 ext) = [] := by
    intro ext hset
    rw [List.filter_eq_nil_iff]
    intro e he
    have h4 := matchesAny_false e.1 (h e he)
    rcases hset with rfl | rfl | rfl | rfl
    · rw [h4.1]; simp
    · rw [h4.2.1]; simp
    · rw [h4.2.2.1]; simp
    · rw [h4.2.2.2]; simp
  have hall : allFiles source_dir listing = [] := by
    unfold allFiles globFiles
    rw [hnil swiftExt (Or.inl rfl), hnil plistExt (Or.inr (Or.inl rfl)),
      hnil jsonExt (Or.inr (Or.inr (Or.inl rfl))),
      hnil entitlementsExt (Or.inr (Or.inr (Or.inr rfl)))]
    rfl
  unfold pack_files
  rw [if_neg (by simp), if_pos hall]

/-- Witness for C7: a listing holding only a README is reported as having no
matching files. -/
theorem c7_empty_pack_witness :
    (∀ e ∈ [(c7OtherNameS.data, c7OtherTextS.data)], matchesAny e.1 = false) ∧
    pack_files true srcDirS.data [(c7OtherNameS.data, c7OtherTextS.data)] =
      PackOutcome.noFiles :=
  ⟨by decide,
    c7_empty_pack srcDirS.data [(c7OtherNameS.data, c7OtherTextS.data)]
      (by decide)⟩

/-- C8: a missing (or non-directory) pack source makes pack_files return the
error report without writing an archive, and a missing unpack input makes
unpack_files return the error report without creating the output directory and
without writing any file. -/
theorem c8_input_not_found (source_dir : List Char)
    (listing : List (List Char × List Char)) (content output_dir : List Char) :
    pack_files false source_dir listing = PackOutcome.srcMissing ∧
    unpack_files false content output_dir =
      ⟨false, [], UnpackMsg.inputMissing⟩ :=
  ⟨rfl, rfl⟩

/-- C9: the unpacker always writes each entry to os.path.join of the output
directory with the marker name taken verbatim; and for a concrete marker name
that is an absolute path, the joined path is the name itself, which does not
lie under the output directory (it does not even have it as a prefix). -/
theorem c9_path_injection :
    (∀ content output_dir : List Char,
      (unpack_files true content output_dir).written =
        (unpackEntries content).map (fun e => (joinPath output_dir e.1, e.2))) ∧
    (unpack_files true c9ArchiveS.data outDirS.data).written =
      [(c9PathS.data, c9TextS.data)] ∧
    outDirS.data.isPrefixOf c9PathS.data = false :=
  ⟨unpack_files_written, by decide, by decide⟩

/-- C10: whenever the input file exists but its text contains no marker, the
model of unpack_files reports that the output directory was created (os.makedirs
runs before the marker scan in the source) while no entry file is written, and
the no-markers message is reported. -/
theorem c10_mkdir_without_markers (content output_dir : List Char)
    (h : (scanMarkers content).2 = []) :
    unpack_files true content output_dir = ⟨true, [], UnpackMsg.noMarkers⟩ := by
  unfold unpack_files
  rw [if_neg (by simp), if_pos h]

/-- Witness for C10 at a concrete marker-free input text. -/
theorem c10_mkdir_without_markers_witness :
    (scanMarkers c10InputS.data).2 = [] ∧
    unpack_files true c10InputS.data outDirS.data =
      ⟨true, [], UnpackMsg.noMarkers⟩ :=
  ⟨by decide, c10_mkdir_without_markers c10InputS.data outDirS.data (by decide)⟩

/-- C2 counterexample: a file whose content begins with two blank lines.  The
claim says the pipeline preserves those blank lines; in fact packing keeps them
but unpacking strips all leading and trailing newlines, so the round trip does
not return the original content. -/
theorem c2_counterexample :
    unpackEntries (packEntries [(c2NameS.data, c2ContentS.data)]) ≠
      [(c2NameS.data, c2ContentS.data)] := by decide

/-- C2 (amended): the packer embeds every content verbatim in the archive
(blank boundary lines included), but the unpacker strips all leading and
trailing newline characters of each span, the original boundary blank lines
together with the synthetic separator newline, so the recovered content is the
stripped original. -/
theorem c2_boundary_stripping (F : List (List Char × List Char))
    (hn : ∀ e ∈ F, nl ∉ e.1) (hc : ∀ e ∈ F, hasTag e.2 = false) :
    (∀ e ∈ F, ∃ u w, packEntries F = u ++ e.2 ++ w) ∧
    unpackEntries (packEntries F) = F.map (fun e => (e.1, stripNl e.2)) := by
  refine ⟨packEntries_embeds F, ?_⟩
  unfold unpackEntries
  rw [scan_pack F hn hc]
  exact withSep_map_strip (fun x => x) F

/-- Witness for the amended C2 at a one-file listing whose content starts with
blank lines. -/
theorem c2_boundary_stripping_witness :
    (∀ e ∈ [(c2NameS.data, c2ContentS.data)], nl ∉ e.1) ∧
    (∀ e ∈ [(c2NameS.data, c2ContentS.data)], hasTag e.2 = false) ∧
    ((∀ e ∈ [(c2NameS.data, c2ContentS.data)],
        ∃ u w, packEntries [(c2NameS.data, c2ContentS.data)] = u ++ e.2 ++ w) ∧
      unpackEntries (packEntries [(c2NameS.data, c2ContentS.data)]) =
        [(c2NameS.data, c2ContentS.data)].map (fun e => (e.1, stripNl e.2))) :=
  ⟨by decide, by decide,
    c2_boundary_stripping [(c2NameS.data, c2ContentS.data)] (by decide)
      (by decide)⟩

/-- C1 counterexample: a single file whose content ends in a newline.  Packing
writes the content verbatim, but unpacking strips the trailing newline, so the
recreated file is not byte-identical to the original: the round-trip claim
fails as stated. -/
theorem c1_counterexample :
    pack_files true srcDirS.data [(rtNameS.data, rtContentS.data)] =
      PackOutcome.wrote rtArchiveS.data 1 ∧
    (unpack_files true rtArchiveS.data outDirS.data).written =
      [(rtOutPathS.data, rtStrippedS.data)] ∧
    rtStrippedS.data ≠ rtContentS.data := by decide

/-- C1 (amended): the round trip recreates exactly the files of F (same names,
byte-identical content, as the set of written files) provided the base names
are distinct, newline- and separator-free, and matched by the glob patterns,
and every content neither begins nor ends with a newline character and does not
contain the marker text. -/
theorem c1_round_trip (source_dir output_dir : List Char)
    (F : List (List Char × List Char)) (hne : F ≠ [])
    (hnodup : (F.map Prod.fst).Nodup)
    (hname : ∀ e ∈ F, nl ∉ e.1 ∧ sep ∉ e.1)
    (hmatch : ∀ e ∈ F, matchesAny e.1 = true)
    (hct : ∀ e ∈ F, hasTag e.2 = false)
    (hbd : ∀ e ∈ F, e.2.head? ≠ some nl ∧ e.2.getLast? ≠ some nl) :
    pack_files true source_dir F =
      PackOutcome.wrote (packedArchive source_dir F) F.length ∧
    ((unpack_files true (packedArchive source_dir F) output_dir).written).Perm
      (F.map (fun e => (joinPath output_dir e.1, e.2))) := by
  have hperm : ((allFiles source_dir F).map
      (fun e => (baseName e.1, e.2))).Perm F :=
    pack_entries_perm source_dir F (fun e he => (hname e he).2) hmatch
  have hEne : (allFiles source_dir F).map (fun e => (baseName e.1, e.2)) ≠ [] := by
    intro h
    rw [h] at hperm
    exact hne (hperm.symm.eq_nil)
  have hAllne : allFiles source_dir F ≠ [] := by
    intro h
    apply hEne
    rw [h]
    rfl
  have hlen : (allFiles source_dir F).length = F.length := by
    have h1 : ((allFiles source_dir F).map
        (fun e => (baseName e.1, e.2))).length = F.length := hperm.length_eq
    rw [List.length_map] at h1
    exact h1
  constructor
  · unfold pack_files
    rw [if_neg (by simp), if_neg hAllne, hlen]
  · have hnE : ∀ e ∈ (allFiles source_dir F).map (fun e => (baseName e.1, e.2)),
        nl ∉ e.1 := fun e he => (hname e (hperm.mem_iff.mp he)).1
    have hcE : ∀ e ∈ (allFiles source_dir F).map (fun e => (baseName e.1, e.2)),
        hasTag e.2 = false := fun e he => hct e (hperm.mem_iff.mp he)
    have hscan := scan_pack _ hnE hcE
    have harch : packedArchive source_dir F =
        packEntries ((allFiles source_dir F).map
          (fun e => (baseName e.1, e.2))) := rfl
    rw [unpack_files_written]
    have hunp : unpackEntries (packedArchive source_dir F) =
        ((allFiles source_dir F).map (fun e => (baseName e.1, e.2))).map
          (fun e => (e.1, stripNl e.2)) := by
      unfold unpackEntries
      rw [harch, hscan]
      exact withSep_map_strip (fun x => x) _
    rw [hunp, List.map_map]
    have hfinal : ((allFiles source_dir F).map
        (fun e => (baseName e.1, e.2))).map
          ((fun e => (joinPath output_dir e.1, e.2)) ∘
            (fun e => (e.1, stripNl e.2))) =
        ((allFiles source_dir F).map (fun e => (baseName e.1, e.2))).map
          (fun e => (joinPath output_dir e.1, e.2)) := by
      refine List.map_congr_left ?_
      intro e he
      simp only [Function.comp]
      rw [stripNl_boundary e.2 (hbd e (hperm.mem_iff.mp he)).1
        (hbd e (hperm.mem_iff.mp he)).2]
    rw [hfinal]
    exact hperm.map _

def c1WNameAS : String := "b.json"

def c1WTextAS : String := "y"

def c1WNameBS : String := "a.swift"

def c1WTextBS : String := "x"

def c1DirS : String := "d"

def c1OutS : String := "o"

/-- Witness for the amended C1 on a two-file listing given in non-sorted
enumeration order. -/
theorem c1_round_trip_witness :
    ([(c1WNameAS.data, c1WTextAS.data), (c1WNameBS.data, c1WTextBS.data)] ≠
      ([] : List (List Char × List Char))) ∧
    (([(c1WNameAS.data, c1WTextAS.data),
        (c1WNameBS.data, c1WTextBS.data)].map Prod.fst).Nodup) ∧
    (∀ e ∈ [(c1WNameAS.data, c1WTextAS.data), (c1WNameBS.data, c1WTextBS.data)],
      nl ∉ e.1 ∧ sep ∉ e.1) ∧
    (∀ e ∈ [(c1WNameAS.data, c1WTextAS.data), (c1WNameBS.data, c1WTextBS.data)],
      matchesAny e.1 = true) ∧
    (∀ e ∈ [(c1WNameAS.data, c1WTextAS.data), (c1WNameBS.data, c1WTextBS.data)],
      hasTag e.2 = false) ∧
    (∀ e ∈ [(c1WNameAS.data, c1WTextAS.data), (c1WNameBS.data, c1WTextBS.data)],
      e.2.head? ≠ some nl ∧ e.2.getLast? ≠ some nl) ∧
    (pack_files true c1DirS.data
        [(c1WNameAS.data, c1WTextAS.data), (c1WNameBS.data, c1WTextBS.data)] =
      PackOutcome.wrote
        (packedArchive c1DirS.data
          [(c1WNameAS.data, c1WTextAS.data), (c1WNameBS.data, c1WTextBS.data)])
        ([(c1WNameAS.data, c1WTextAS.data),
          (c1WNameBS.data, c1WTextBS.data)].length) ∧
    ((unpack_files true
        (packedArchive c1DirS.data
          [(c1WNameAS.data, c1WTextAS.data), (c1WNameBS.data, c1WTextBS.data)])
        c1OutS.data).written).Perm
      ([(c1WNameAS.data, c1WTextAS.data), (c1WNameBS.data, c1WTextBS.data)].map
        (fun e => (joinPath c1OutS.data e.1, e.2)))) :=
  ⟨by decide, by decide, by decide, by decide, by decide, by decide,
    c1_round_trip c1DirS.data c1OutS.data
      [(c1WNameAS.data, c1WTextAS.data), (c1WNameBS.data, c1WTextBS.data)]
      (by decide) (by decide) (by decide) (by decide) (by decide) (by decide)⟩

/-- C5: archive entries appear in strictly ascending code-point order of base
name (here: pairwise, so in particular adjacently), whatever enumeration order
the filesystem returned, and any permutation of the listing produces the very
same pack_files outcome, byte for byte. -/
theorem c5_order_invariant (isDir : Bool) (source_dir : List Char)
    (F F' : List (List Char × List Char))
    (hnodup : (F.map Prod.fst).Nodup)
    (hsep : ∀ e ∈ F, sep ∉ e.1)
    (hperm : F'.Perm F) :
    ((allFiles source_dir F).map (fun e => baseName e.1)).Pairwise
      (fun a b => lexLt a b = true) ∧
    pack_files isDir source_dir F' = pack_files isDir source_dir F := by
  constructor
  · have hstrict := allFiles_pairwise_strict source_dir F hnodup hsep
    rw [List.pairwise_map]
    refine List.Pairwise.imp_of_mem ?_ hstrict
    intro a b ha hb hab
    obtain ⟨ea, hea, haeq, _⟩ := allFiles_mem source_dir F a ha
    obtain ⟨eb, heb, hbeq, _⟩ := allFiles_mem source_dir F b hb
    have hja : a.1 = dirPre source_dir ++ ea.1 := by
      rw [haeq]
      exact joinPath_dirPre _ _ (hsep ea hea)
    have hjb : b.1 = dirPre source_dir ++ eb.1 := by
      rw [hbeq]
      exact joinPath_dirPre _ _ (hsep eb heb)
    rw [hja, hjb, lexLt_append_cancel] at hab
    rw [hja, hjb, baseName_dirPre _ _ (hsep ea hea),
      baseName_dirPre _ _ (hsep eb heb)]
    exact hab
  · have hEq := allFiles_canonical source_dir F F' hperm hnodup hsep
    unfold pack_files packedArchive
    rw [hEq]

def c5NameAS : String := "b.swift"

def c5TextAS : String := "y"

def c5NameBS : String := "a.swift"

def c5TextBS : String := "x"

/-- Witness for C5 on a two-file listing enumerated against the sorted order,
together with its other enumeration order. -/
theorem c5_order_invariant_witness :
    (([(c5NameAS.data, c5TextAS.data), (c5NameBS.data, c5TextBS.data)].map
        Prod.fst).Nodup) ∧
    (∀ e ∈ [(c5NameAS.data, c5TextAS.data), (c5NameBS.data, c5TextBS.data)],
      sep ∉ e.1) ∧
    ([(c5NameBS.data, c5TextBS.data), (c5NameAS.data, c5TextAS.data)].Perm
      [(c5NameAS.data, c5TextAS.data), (c5NameBS.data, c5TextBS.data)]) ∧
    (((allFiles srcDirS.data
        [(c5NameAS.data, c5TextAS.data), (c5NameBS.data, c5TextBS.data)]).map
          (fun e => baseName e.1)).Pairwise (fun a b => lexLt a b = true) ∧
    pack_files true srcDirS.data
        [(c5NameBS.data, c5TextBS.data), (c5NameAS.data, c5TextAS.data)] =
      pack_files true srcDirS.data
        [(c5NameAS.data, c5TextAS.data), (c5NameBS.data, c5TextBS.data)]) :=
  ⟨by decide, by decide, by decide,
    c5_order_invariant true srcDirS.data
      [(c5NameAS.data, c5TextAS.data), (c5NameBS.data, c5TextBS.data)]
      [(c5NameBS.data, c5TextBS.data), (c5NameAS.data, c5TextAS.data)]
      (by decide) (by decide) (by decide)⟩

end OneFa
